import Mathlib

/-!
Shallow embedding of the federated on-chain wallet module
(`modules/fedimint-wallet/src/lib.rs`): the round-consensus combination
rules, peg-in validation, peg-out construction, signature collection and
the audit hook.  Bitcoin and secp256k1 primitives (scripts, sighashes,
ECDSA verification, txids, descriptor tweaking) are kept abstract as
parameters of the embedding, since their internals never decide the
properties below; machine integers are `Nat`/`Int` with explicit
wrapping where the source can overflow.
-/

namespace Minimint

/-- Bitcoin networks (`bitcoin::Network`). -/
inductive Network
  | bitcoin | testnet | signet | regtest
deriving DecidableEq, Repr

/-- Bitcoin address types (`bitcoin::AddressType`). -/
inductive AddressType
  | p2pkh | p2sh | p2wpkh | p2wsh | p2tr
deriving DecidableEq, Repr

/-- The two fields of `bitcoin::Address` that `is_address_valid_for_network`
reads: the network tag and the result of `address_type()`. -/
structure BAddress where
  network : Network
  addressType : Option AddressType
deriving DecidableEq, Repr

/-- `is_address_valid_for_network` (lib.rs, bottom of the file): the
Testnet/Regtest/Signet leniency applies only to addresses whose own
network tag is Testnet and whose type is p2pkh or p2sh. -/
def isAddressValidForNetwork (address : BAddress) (network : Network) : Bool :=
  match address.network, address.addressType with
  | .testnet, some .p2pkh => [Network.testnet, .regtest, .signet].contains network
  | .testnet, some .p2sh => [Network.testnet, .regtest, .signet].contains network
  | .testnet, _ => [Network.testnet, .signet].contains network
  | addrNet, _ => addrNet == network

/-- Definition following the spec's words, for comparison with
`isAddressValidForNetwork`: "Testnet, Signet and Regtest are considered
mutually compatible for P2PKH and P2SH addresses", all other addresses
must match the configured network exactly. -/
def specNetworkCompatible (address : BAddress) (network : Network) : Bool :=
  let testlike : Network → Bool := fun n =>
    [Network.testnet, .regtest, .signet].contains n
  match address.addressType with
  | some .p2pkh => (testlike address.network && testlike network) || address.network == network
  | some .p2sh => (testlike address.network && testlike network) || address.network == network
  | _ => address.network == network

/-- `PegOutFees { fee_rate, total_weight }`; the fee rate is the
`sats_per_kvb` field of `Feerate`. -/
structure PegOutFees where
  feeRate : Nat
  totalWeight : Nat
deriving DecidableEq, Repr

/-- `PegOut { recipient, amount, fees }` (amount in sats). -/
structure PegOut where
  recipient : BAddress
  amount : Nat
  fees : PegOutFees
deriving DecidableEq, Repr

/-- `RoundConsensus { block_height, fee_rate, randomness_beacon }`. -/
structure RoundConsensus where
  blockHeight : Nat
  feeRate : Nat
  randomnessBeacon : List Nat
deriving DecidableEq, Repr

/-- `SpendableUTXO { tweak, amount }` (amount in sats, tweak the 32-byte
serialized claim key). -/
structure SpendableUTXO where
  tweak : List Nat
  amount : Nat
deriving DecidableEq, Repr

/-- The fields of a PSBT input that the wallet reads and writes: the
spent outpoint, the witness UTXO value, the proprietary tweak entry and
the partial-signature map (tweaked pubkey, abstracted to `Nat`, mapped to
an ECDSA signature, abstracted to `Nat`). -/
structure PsbtInput where
  prevOutpoint : Nat
  witnessValue : Nat
  tweak : List Nat
  sigMap : List (Nat × Nat)
deriving DecidableEq, Repr

/-- A script pubkey, abstracted to an identifier plus the two quantities
`create_tx` reads from it: its byte length and its `dust_value()`. -/
structure Script where
  sid : Nat
  len : Nat
  dustValue : Nat
deriving DecidableEq, Repr

/-- `UnsignedTransaction { psbt, signatures, change, fees }`.  The psbt
is flattened to its inputs and its (value, script) outputs; `signatures`
holds `(peer, PegOutSignatureItem.signature)` pairs. -/
structure UnsignedTx where
  inputs : List PsbtInput
  outputs : List (Nat × Nat)
  change : Nat
  fees : PegOutFees
  signatures : List (Nat × List Nat)
deriving DecidableEq, Repr

/-- `PendingTransaction { tx, tweak, change }` with the finalized tx
abstracted to its txid. -/
structure PendingTx where
  txId : Nat
  tweak : List Nat
  change : Nat
deriving DecidableEq, Repr

/-- `PegInProof` as far as `validate_input`/`apply_input` read it:
the proof's block hash, the peg-in outpoint, the value of the paying
output and the serialized claim pubkey.  `verifies` abstracts
`PegInProof::verify` (txoproof.rs, SPV/descriptor checking, outside the
embedded core); its internals never decide the claims below. -/
structure PegInProof where
  proofBlock : Nat
  outpoint : Nat
  txOutputValue : Nat
  tweakContractKey : List Nat
  verifies : Bool
deriving DecidableEq, Repr

/-- The wallet's transactional key-value state: `UTXOKey`,
`BlockHashKey`, `RoundConsensusKey`, `UnsignedTransactionKey`,
`PendingTransactionKey`, `PegOutTxSignatureCI` and
`PegOutBitcoinTransaction` tables, each as an association list. -/
structure WalletDb where
  utxos : List (Nat × SpendableUTXO)
  knownBlocks : List Nat
  roundConsensus : Option RoundConsensus
  unsignedTxs : List (Nat × UnsignedTx)
  pendingTxs : List (Nat × PendingTx)
  pegOutSigCI : List (Nat × List Nat)
  pegOutBtcTx : List (Nat × Nat)
deriving DecidableEq, Repr

/-- `WalletError` variants reachable from input/output validation. -/
inductive WalletError
  | wrongNetwork (expected got : Network)
  | unknownPegInProofBlock (blockHash : Nat)
  | pegInProofError
  | pegInAlreadyClaimed
  | pegOutFeeRate (proposed consensus : Nat)
  | notEnoughSpendableUTXO
deriving DecidableEq, Repr

/-- `ProcessPegOutSigError` variants reachable from signature collection. -/
inductive PegOutSigError
  | wrongSignatureCount (expected got : Nat)
  | sighashError
  | invalidSignature
  | duplicateSignature
  | missingOrMalformedChangeTweak
  | errorFinalizingPsbt
deriving DecidableEq, Repr

/-- `InputMeta` as reported for a peg-in (amount in sats). -/
structure InputMeta where
  amount : Nat
  fee : Nat
  pukKeys : List (List Nat)
deriving DecidableEq, Repr

/-- `TransactionItemAmount` as reported for a peg-out (amount in sats). -/
structure TransactionItemAmount where
  amount : Nat
  fee : Nat
deriving DecidableEq, Repr

/-- `FeeConsensus { peg_in_abs, peg_out_abs }`. -/
structure FeeConsensus where
  pegInAbs : Nat
  pegOutAbs : Nat
deriving DecidableEq, Repr

/-- The read-only wallet context: configuration plus the Bitcoin
primitives the wallet calls, abstracted to functions.  `calcFee` stands
for `Feerate::calculate_fee` (rate, weight ↦ fee in sats), `deriveScript`
for `StatelessWallet::derive_script` (change tweak ↦ tweaked descriptor
script), `addrScript` for `Address::script_pubkey`, `txidOf` for
`Transaction::txid`, `peerKeyOf` for the `peer_peg_in_keys` table. -/
structure Cfg where
  network : Network
  feeConsensus : FeeConsensus
  calcFee : Nat → Nat → Nat
  deriveScript : List Nat → Script
  addrScript : BAddress → Script
  maxSatisfactionWeight : Nat
  txidOf : UnsignedTx → Nat
  peerKeyOf : Nat → Nat

/-! ### Round-consensus engine -/

/-- Bytewise XOR of two 32-byte arrays, the `xor` helper inside
`process_randomness_contributions`. -/
def xorBytes (lhs rhs : List Nat) : List Nat :=
  List.zipWith Nat.xor lhs rhs

/-- `Wallet::process_randomness_contributions`: fold the peer
contributions with bytewise XOR starting from the all-zero array. -/
def processRandomnessContributions (randomness : List (List Nat)) : List Nat :=
  randomness.foldl xorBytes (List.replicate 32 0)

/-- The value both proposal-combination functions pick: element at index
`len / 2` of the (stably) sorted proposal list. -/
def medianOf (proposals : List Nat) : Nat :=
  (List.insertionSort (· ≤ ·) proposals).getD (proposals.length / 2) 0

/-- `Wallet::process_fee_proposals`: sort, take index `len / 2`.
`none` models the `assert!(!proposals.is_empty())` panic. -/
def processFeeProposals (proposals : List Nat) : Option Nat :=
  if proposals.isEmpty then none
  else some (medianOf proposals)

/-- `Wallet::process_block_height_proposals` given the current consensus
height (`consensus_height(dbtx).unwrap_or(0)`): sort, take index
`len / 2`; `none` models the two panics (empty proposals, and the fatal
"federation is broken" branch when the median shrinks below the current
consensus height). -/
def processBlockHeightProposals (consensusHeight : Nat) (proposals : List Nat) :
    Option Nat :=
  if proposals.isEmpty then none
  else if consensusHeight ≤ medianOf proposals then some (medianOf proposals)
  else none

/-! ### Peg-in validation -/

/-- `Wallet::validate_input`: the block must be known, the SPV proof must
verify, and the outpoint must not already be claimed as a
`SpendableUTXO`. -/
def validateInput (cfg : Cfg) (db : WalletDb) (input : PegInProof) :
    Except WalletError InputMeta :=
  if ¬ db.knownBlocks.contains input.proofBlock then
    .error (.unknownPegInProofBlock input.proofBlock)
  else if ¬ input.verifies then
    .error .pegInProofError
  else if (List.lookup input.outpoint db.utxos).isSome then
    .error .pegInAlreadyClaimed
  else
    .ok { amount := input.txOutputValue
          fee := cfg.feeConsensus.pegInAbs
          pukKeys := [input.tweakContractKey] }

/-- `Wallet::apply_input`: re-validate, then insert the new
`SpendableUTXO` keyed by the peg-in outpoint. -/
def applyInput (cfg : Cfg) (db : WalletDb) (input : PegInProof) :
    Except WalletError (InputMeta × WalletDb) :=
  match validateInput cfg db input with
  | .error e => .error e
  | .ok meta =>
      .ok (meta,
        { db with utxos :=
            (input.outpoint,
              { tweak := input.tweakContractKey
                amount := input.txOutputValue }) :: db.utxos })

/-! ### Stateless wallet: coin selection and PSBT construction -/

/-- Total sats of a list of keyed UTXOs. -/
def sumAmounts (l : List (Nat × SpendableUTXO)) : Nat :=
  (l.map fun kv => kv.2.amount).sum

/-- Total witness-UTXO sats of a transaction's inputs. -/
def sumInputs (tx : UnsignedTx) : Nat :=
  (tx.inputs.map fun inp => inp.witnessValue).sum

/-- The fixed weight overhead of `create_tx`: version, input/output
count varints, the two outputs (destination and change) and lock time. -/
def txBaseWeight (destination changeScript : Script) : Nat :=
  16 + 12 + 12 +
    (destination.len * 4 + 1 + 32 + 1 + changeScript.len * 4 + 32) + 16

/-- The weight added per selected input:
`descriptor.max_satisfaction_weight() + 128 + 16 + 16`. -/
def inputWeight (cfg : Cfg) : Nat :=
  cfg.maxSatisfactionWeight + 128 + 16 + 16

/-- The UTXO selection loop of `StatelessWallet::create_tx`: pop UTXOs
(already ordered largest-first) while the selected value is below
`peg_out_amount + change_script.dust_value() + fees`, re-deriving the
fee from the running total weight after each addition.  Returns the
selected UTXOs, the selected value and the final total weight, or `none`
once the UTXO list is exhausted. -/
def selectUtxos (calcFee : Nat → Nat → Nat) (feeRate target inWeight : Nat) :
    List (Nat × SpendableUTXO) → List (Nat × SpendableUTXO) → Nat → Nat →
    Option (List (Nat × SpendableUTXO) × Nat × Nat)
  | [], acc, selected, weight =>
      if selected < target + calcFee feeRate weight then none
      else some (acc, selected, weight)
  | u :: rest, acc, selected, weight =>
      if selected < target + calcFee feeRate weight then
        selectUtxos calcFee feeRate target inWeight rest (acc ++ [u])
          (selected + u.2.amount) (weight + inWeight)
      else some (acc, selected, weight)

/-- `StatelessWallet::create_tx`.  The weight bookkeeping mirrors the
source: fixed overhead, two outputs, and
`max_satisfaction_weight + 160` weight units per added input.  UTXOs are
stably sorted by amount ascending and popped from the back, i.e.
consumed in the order of the reversed sorted list. -/
def createTx (cfg : Cfg) (pegOutAmount : Nat) (destination : Script)
    (utxos : List (Nat × SpendableUTXO)) (feeRate : Nat)
    (changeTweak : List Nat) : Option UnsignedTx :=
  let changeScript := cfg.deriveScript changeTweak
  let sorted :=
    (List.insertionSort (fun a b => a.2.amount ≤ b.2.amount) utxos).reverse
  match selectUtxos cfg.calcFee feeRate (pegOutAmount + changeScript.dustValue)
      (inputWeight cfg) sorted [] 0 (txBaseWeight destination changeScript) with
  | none => none
  | some (sel, totalSelected, totalWeight) =>
      let fees := cfg.calcFee feeRate totalWeight
      let change := totalSelected - fees - pegOutAmount
      some
        { inputs := sel.map fun kv =>
            { prevOutpoint := kv.1
              witnessValue := kv.2.amount
              tweak := kv.2.tweak
              sigMap := [] }
          outputs := [(pegOutAmount, destination.sid), (change, changeScript.sid)]
          change := change
          fees := { feeRate := feeRate, totalWeight := totalWeight }
          signatures := [] }

/-- `Wallet::create_peg_out_tx`: run `create_tx` against the available
UTXOs, the peg-out's fee rate and the current randomness beacon as the
change tweak (panics, modelled `none`, if no round consensus exists). -/
def createPegOutTx (cfg : Cfg) (db : WalletDb) (pegOut : PegOut) :
    Option UnsignedTx :=
  match db.roundConsensus with
  | none => none
  | some rc =>
      createTx cfg pegOut.amount (cfg.addrScript pegOut.recipient) db.utxos
        pegOut.fees.feeRate rc.randomnessBeacon

/-! ### Peg-out validation and application -/

/-- `Wallet::validate_output`.  The outer `Option` models the
`current_round_consensus(..).unwrap()` panic; it is `some` whenever a
round consensus exists or the address check already fails. -/
def validateOutput (cfg : Cfg) (db : WalletDb) (output : PegOut) :
    Option (Except WalletError TransactionItemAmount) :=
  if ¬ isAddressValidForNetwork output.recipient cfg.network then
    some (.error (.wrongNetwork cfg.network output.recipient.network))
  else
    match db.roundConsensus with
    | none => none
    | some rc =>
        if output.fees.feeRate < rc.feeRate then
          some (.error (.pegOutFeeRate output.fees.feeRate rc.feeRate))
        else if (createPegOutTx cfg db output).isNone then
          some (.error .notEnoughSpendableUTXO)
        else
          some (.ok
            { amount := output.amount + cfg.calcFee output.fees.feeRate
                output.fees.totalWeight
              fee := cfg.feeConsensus.pegOutAbs })

/-- Delete one key from an association-list table (`remove_entry`). -/
def removeEntry (l : List (Nat × SpendableUTXO)) (k : Nat) :
    List (Nat × SpendableUTXO) :=
  l.filter fun kv => decide (kv.1 ≠ k)

/-- `Wallet::apply_output`: validate, rebuild the unsigned tx, sign it
locally (the extracted local signatures go to `PegOutTxSignatureCI`,
abstracted to the txid; the stored `UnsignedTransaction` keeps its empty
`signatures` list), delete every spent `SpendableUTXO`, and record the
`out_point → txid` mapping. -/
def applyOutput (cfg : Cfg) (db : WalletDb) (output : PegOut)
    (outPoint : Nat) : Option (Except WalletError (TransactionItemAmount × WalletDb)) :=
  match validateOutput cfg db output with
  | none => none
  | some (.error e) => some (.error e)
  | some (.ok amount) =>
      match createPegOutTx cfg db output with
      | none => none
      | some tx =>
          let txid := cfg.txidOf tx
          some (.ok (amount,
            { db with
              utxos := tx.inputs.foldl (fun u inp => removeEntry u inp.prevOutpoint)
                db.utxos
              unsignedTxs := (txid, tx) :: db.unsignedTxs
              pegOutSigCI := (txid, [txid]) :: db.pegOutSigCI
              pegOutBtcTx := (outPoint, txid) :: db.pegOutBtcTx }))

/-! ### Audit -/

/-- Wrap an unbounded natural into `i64` two's complement, the `as i64`
cast of `Amount::to_sat()`. -/
def i64cast (n : Nat) : Int :=
  if n % 2 ^ 64 < 2 ^ 63 then (n % 2 ^ 64 : Nat) else (n % 2 ^ 64 : Nat) - 2 ^ 64

/-- Wrap an integer into `i64` two's complement (the `* 1000`
multiplication is an `i64` multiplication). -/
def i64wrap (n : Int) : Int :=
  (n + 2 ^ 63) % 2 ^ 64 - 2 ^ 63

/-- One audit item: `v.to_sat() as i64 * 1000`. -/
def auditItem (sats : Nat) : Int :=
  i64wrap (i64cast sats * 1000)

/-- `Wallet::audit`: one item per `SpendableUTXO` (its amount), one per
`UnsignedTransaction` (its change) and one per `PendingTransaction`
(its change), each as `to_sat() as i64 * 1000`. -/
def walletAuditItems (db : WalletDb) : List Int :=
  db.utxos.map (fun kv => auditItem kv.2.amount) ++
    db.unsignedTxs.map (fun kv => auditItem kv.2.change) ++
    db.pendingTxs.map (fun kv => auditItem kv.2.change)

/-! ### Signature collection (`sign_peg_out_psbt`, `end_consensus_epoch`) -/

/-- `BTreeMap::insert` on a partial-signature map: the key is bound to
the new value, any previous binding is dropped (the caller checks for a
previous binding separately, as the source does via the insert's return
value). -/
def insertSig (m : List (Nat × Nat)) (k v : Nat) : List (Nat × Nat) :=
  (k, v) :: m.filter fun kv => decide (kv.1 ≠ k)

/-- The per-input loop of `Wallet::sign_peg_out_psbt`: for each (input,
signature) pair in order, verify the peer's signature against the input
(`verify idx sig` abstracts the SegWit-v0 sighash plus ECDSA check under
the peer's tweaked key), insert it into the input's partial-signature
map, and stop with an error on the first invalid or duplicate signature.
Inputs already processed keep their inserted signature. -/
def signLoop (verify : Nat → Nat → Bool) (peerKey : Nat) :
    Nat → List PsbtInput → List Nat → List PsbtInput × Except PegOutSigError Unit
  | _, [], _ => ([], .ok ())
  | _, inp :: inps, [] => (inp :: inps, .ok ())
  | idx, inp :: inps, sig :: sigs =>
      if verify idx sig = false then (inp :: inps, .error .invalidSignature)
      else
        let dup := (List.lookup peerKey inp.sigMap).isSome
        let inp' := { inp with sigMap := insertSig inp.sigMap peerKey sig }
        if dup then (inp' :: inps, .error .duplicateSignature)
        else
          let next := signLoop verify peerKey (idx + 1) inps sigs
          (inp' :: next.1, next.2)

/-- `Wallet::sign_peg_out_psbt`: check the signature count against the
input count, then run the verification/insertion loop.  Returns the
updated PSBT inputs (mutation of `&mut psbt`) along with the result. -/
def signPegOutPsbt (verify : Nat → Nat → Bool) (peerKey : Nat)
    (inputs : List PsbtInput) (sigs : List Nat) :
    List PsbtInput × Except PegOutSigError Unit :=
  if inputs.length ≠ sigs.length then
    (inputs, .error (.wrongSignatureCount inputs.length sigs.length))
  else signLoop verify peerKey 0 inputs sigs

/-- The signer-collection fold of `Wallet::end_consensus_epoch` for one
unsigned transaction: attempt each delivered `(peer, item)` against the
shared mutable PSBT; peers whose attempt returned `Ok` form the signers
set. -/
def collectSigners (verifyOf : Nat → Nat → Nat → Bool) (keyOf : Nat → Nat)
    (inputs : List PsbtInput) (sigItems : List (Nat × List Nat)) :
    List PsbtInput × List Nat :=
  sigItems.foldl
    (fun acc item =>
      let step := signPegOutPsbt (verifyOf item.1) (keyOf item.1) acc.1 item.2
      match step.2 with
      | .ok _ => (step.1, acc.2 ++ [item.1])
      | .error _ => (step.1, acc.2))
    (inputs, [])

/-- A placeholder PSBT input, used only as the default of `List.getD`. -/
def dummyInput : PsbtInput :=
  { prevOutpoint := 0, witnessValue := 0, tweak := [], sigMap := [] }

/-- A minimal concrete context for `create_tx`: zero fee function, every
derived script has dust value 5 and length 1, no satisfaction weight. -/
def exCfgC5 : Cfg :=
  { network := .regtest, feeConsensus := { pegInAbs := 0, pegOutAbs := 0 },
    calcFee := fun _ _ => 0,
    deriveScript := fun _ => { sid := 1, len := 1, dustValue := 5 },
    addrScript := fun _ => { sid := 2, len := 1, dustValue := 5 },
    maxSatisfactionWeight := 0, txidOf := fun _ => 0, peerKeyOf := fun _ => 0 }

/-- The destination script used in the concrete `create_tx` runs. -/
def exDestC5 : Script := { sid := 2, len := 1, dustValue := 5 }

/-- A concrete context for `apply_output`: zero fees, txid constantly
42. -/
def exCfgC8 : Cfg :=
  { network := .testnet, feeConsensus := { pegInAbs := 0, pegOutAbs := 0 },
    calcFee := fun _ _ => 0,
    deriveScript := fun _ => { sid := 1, len := 1, dustValue := 5 },
    addrScript := fun _ => { sid := 2, len := 1, dustValue := 5 },
    maxSatisfactionWeight := 0, txidOf := fun _ => 42, peerKeyOf := fun _ => 0 }

/-- A concrete wallet state with two spendable UTXOs (outpoints 5 and 9). -/
def exDbC8 : WalletDb :=
  { utxos := [(5, { tweak := [], amount := 15 }),
      (9, { tweak := [], amount := 100 })],
    knownBlocks := [],
    roundConsensus := some { blockHeight := 0, feeRate := 1, randomnessBeacon := [] },
    unsignedTxs := [], pendingTxs := [], pegOutSigCI := [], pegOutBtcTx := [] }

/-- A concrete peg-out request of 10 sats to a Testnet P2PKH address. -/
def exOutC8 : PegOut :=
  { recipient := { network := .testnet, addressType := some .p2pkh },
    amount := 10, fees := { feeRate := 1, totalWeight := 0 } }

/-- The unsigned transaction `apply_output` builds for `exOutC8`: it
spends the 100-sat UTXO at outpoint 9 and pays 90 sats of change. -/
def exTxC8 : UnsignedTx :=
  { inputs := [{ prevOutpoint := 9, witnessValue := 100, tweak := [], sigMap := [] }],
    outputs := [(10, 2), (90, 1)], change := 90,
    fees := { feeRate := 1, totalWeight := 290 }, signatures := [] }

/-- The wallet state after the concrete `apply_output`: the spent UTXO 9
is gone, UTXO 5 is untouched, and the unsigned tx is queued under txid
42. -/
def exDbC8' : WalletDb :=
  { utxos := [(5, { tweak := [], amount := 15 })],
    knownBlocks := [],
    roundConsensus := some { blockHeight := 0, feeRate := 1, randomnessBeacon := [] },
    unsignedTxs := [(42, exTxC8)], pendingTxs := [],
    pegOutSigCI := [(42, [42])], pegOutBtcTx := [(77, 42)] }

/-- An unsigned peg-out transaction with 5 sats of outstanding change. -/
def exUtxC6 : UnsignedTx :=
  { inputs := [], outputs := [], change := 5,
    fees := { feeRate := 0, totalWeight := 0 }, signatures := [] }

/-- A wallet state holding a single unsigned peg-out transaction with 5
sats of outstanding change. -/
def exDbC6 : WalletDb :=
  { utxos := [], knownBlocks := [], roundConsensus := none,
    unsignedTxs := [(1, exUtxC6)],
    pendingTxs := [], pegOutSigCI := [], pegOutBtcTx := [] }

/-- Two fresh PSBT inputs with empty partial-signature maps. -/
def exInputsC9 : List PsbtInput :=
  [{ prevOutpoint := 0, witnessValue := 0, tweak := [], sigMap := [] },
   { prevOutpoint := 1, witnessValue := 0, tweak := [], sigMap := [] }]

/-! ## Theorems -/

theorem xorBytes_comm (a b : List Nat) : xorBytes a b = xorBytes b a := by
  apply List.ext_getElem
  · simp only [xorBytes, List.length_zipWith]; omega
  · intro i h1 h2
    simp only [xorBytes, List.getElem_zipWith]
    exact Nat.xor_comm _ _

theorem xorBytes_assoc (a b c : List Nat) :
    xorBytes (xorBytes a b) c = xorBytes a (xorBytes b c) := by
  apply List.ext_getElem
  · simp only [xorBytes, List.length_zipWith]; omega
  · intro i h1 h2
    simp only [xorBytes, List.getElem_zipWith]
    exact Nat.xor_assoc _ _ _

theorem xorBytes_rightComm : RightCommutative xorBytes :=
  ⟨fun b a1 a2 => by
    rw [xorBytes_assoc, xorBytes_assoc, xorBytes_comm a1 a2]⟩

/-- C3: `process_randomness_contributions` folds the peers' 32-byte
contributions with bytewise XOR; the resulting beacon is invariant under
any permutation of the contribution list, and the five contributions
`0x00..00, 0xff..ff, 0xa5..a5, 0x5a..5a, 0x00..00` yield the all-zero
beacon. -/
theorem randomness_beacon_xor_perm :
    (∀ l1 l2 : List (List Nat), l1.Perm l2 →
      processRandomnessContributions l1 = processRandomnessContributions l2) ∧
    processRandomnessContributions
      [List.replicate 32 0, List.replicate 32 255, List.replicate 32 165,
        List.replicate 32 90, List.replicate 32 0] = List.replicate 32 0 := by
  constructor
  · intro l1 l2 hperm
    haveI := xorBytes_rightComm
    exact hperm.foldl_eq _
  · decide

/-- C3 witness: permutation invariance at a concrete pair of
contribution lists. -/
theorem randomness_beacon_xor_perm_witness :
    processRandomnessContributions [List.replicate 32 5, List.replicate 32 7] =
      processRandomnessContributions [List.replicate 32 7, List.replicate 32 5] :=
  randomness_beacon_xor_perm.1 _ _ (List.Perm.swap _ _ _)

/-- Helper: a `processBlockHeightProposals` run on a non-empty proposal
list returns `some m` exactly when `m` is the median and does not shrink
below the current consensus height. -/
theorem processBlockHeight_some_iff (cur : Nat) (props : List Nat)
    (hne : props ≠ []) (m : Nat) :
    processBlockHeightProposals cur props = some m ↔
      (m = medianOf props ∧ cur ≤ m) := by
  have hempty : props.isEmpty = false := List.isEmpty_eq_false.mpr hne
  by_cases hc : cur ≤ medianOf props
  · simp [processBlockHeightProposals, hempty, hc]
    constructor
    · intro h; exact ⟨h.symm, h ▸ hc⟩
    · intro h; exact h.1.symm
  · simp [processBlockHeightProposals, hempty, hc]
    intro h; omega

/-- C1: on a non-empty proposal list, `process_block_height_proposals`
returns the median of the sorted proposals when it is at least the
current consensus height, halts fatally (modelled `none`) when the
median is below the current height, and consequently every returned new
consensus height is ≥ the previous one. -/
theorem block_height_median_monotone (cur : Nat) (props : List Nat)
    (hne : props ≠ []) :
    (cur ≤ medianOf props →
      processBlockHeightProposals cur props = some (medianOf props)) ∧
    (medianOf props < cur → processBlockHeightProposals cur props = none) ∧
    (∀ h', processBlockHeightProposals cur props = some h' →
      cur ≤ h' ∧ h' = medianOf props) := by
  have hempty : props.isEmpty = false := List.isEmpty_eq_false.mpr hne
  refine ⟨fun h => ?_, fun h => ?_, fun h' heq => ?_⟩
  · exact (processBlockHeight_some_iff cur props hne _).mpr ⟨rfl, h⟩
  · simp [processBlockHeightProposals, hempty]
    omega
  · have := (processBlockHeight_some_iff cur props hne h').mp heq
    exact ⟨this.2, this.1⟩

/-- C1 witness: the spec's height-median scenario — proposals
`[100,102,108,110,115]` over consensus height 100 give 108, and
proposals `[105,106,107]` over height 108 are fatal. -/
theorem block_height_median_monotone_witness :
    processBlockHeightProposals 100 [100, 102, 108, 110, 115] = some 108 ∧
    processBlockHeightProposals 108 [105, 106, 107] = none := by
  constructor
  · have h := (block_height_median_monotone 100 [100, 102, 108, 110, 115]
      (by decide)).1
    have hm : medianOf [100, 102, 108, 110, 115] = 108 := by decide
    rw [hm] at h
    exact h (by decide)
  · have h := (block_height_median_monotone 108 [105, 106, 107] (by decide)).2.1
    have hm : medianOf [105, 106, 107] = 106 := by decide
    rw [hm] at h
    exact h (by decide)

/-- C4 counterexample: on the even-count fee proposals `[1,2,3,4]` the
engine picks 3, which is not the lower-indexed of the two middle
elements (that would be 2). -/
theorem median_even_upper_counterexample :
    processFeeProposals [1, 2, 3, 4] = some 3 ∧
    (List.insertionSort (· ≤ ·) [1, 2, 3, 4]) = [1, 2, 3, 4] ∧
    (List.insertionSort (· ≤ ·) [1, 2, 3, 4]).getD (4 / 2 - 1) 0 = 2 ∧
    processFeeProposals [1, 2, 3, 4] ≠
      some ((List.insertionSort (· ≤ ·) [1, 2, 3, 4]).getD (4 / 2 - 1) 0) := by
  refine ⟨by decide, by decide, by decide, by decide⟩

/-- C4 amended: for every non-empty even-length proposal list, the
median used by the round-consensus engine is the element at index
`len / 2` of the sorted list, i.e. the HIGHER-indexed of the two middle
elements (which is ≥ the lower one); the choice is deterministic
(invariant under permutation of the proposals) and is the same value
`process_block_height_proposals` adopts when it does not shrink. -/
theorem median_even_upper (props : List Nat) (hne : props ≠ [])
    (heven : props.length % 2 = 0) :
    processFeeProposals props =
      some ((List.insertionSort (· ≤ ·) props).getD (props.length / 2) 0) ∧
    (List.insertionSort (· ≤ ·) props).getD (props.length / 2 - 1) 0 ≤
      (List.insertionSort (· ≤ ·) props).getD (props.length / 2) 0 ∧
    (∀ props', props.Perm props' →
      processFeeProposals props' = processFeeProposals props) ∧
    (∀ cur, cur ≤ medianOf props →
      processBlockHeightProposals cur props = some (medianOf props)) := by
  have hempty : props.isEmpty = false := List.isEmpty_eq_false.mpr hne
  have hlen : props.length ≠ 0 := fun h => hne (List.length_eq_zero.mp h)
  have hlen2 : 2 ≤ props.length := by omega
  have hslen : (List.insertionSort (· ≤ ·) props).length = props.length :=
    List.length_insertionSort _ props
  refine ⟨?_, ?_, ?_, ?_⟩
  · simp [processFeeProposals, hempty, medianOf]
  · have hsorted := List.sorted_insertionSort (· ≤ ·) props
    have hi : props.length / 2 - 1 < (List.insertionSort (· ≤ ·) props).length := by
      omega
    have hj : props.length / 2 < (List.insertionSort (· ≤ ·) props).length := by
      omega
    rw [List.getD_eq_getElem _ _ hi, List.getD_eq_getElem _ _ hj]
    exact List.pairwise_iff_getElem.mp hsorted _ _ hi hj (by omega)
  · intro props' hperm
    have hne' : props' ≠ [] := by
      intro h
      subst h
      exact hne (List.Perm.eq_nil hperm)
    have hempty' : props'.isEmpty = false := List.isEmpty_eq_false.mpr hne'
    have hsortEq : List.insertionSort (· ≤ ·) props' =
        List.insertionSort (· ≤ ·) props := by
      apply List.eq_of_perm_of_sorted
        (((List.perm_insertionSort _ props').trans hperm.symm).trans
          (List.perm_insertionSort _ props).symm)
        (List.sorted_insertionSort _ props')
        (List.sorted_insertionSort _ props)
    simp [processFeeProposals, hempty, hempty', medianOf, hsortEq,
      hperm.length_eq]
  · intro cur hcur
    exact (processBlockHeight_some_iff cur props hne _).mpr ⟨rfl, hcur⟩

/-- C4 witness: the amended median rule at the concrete proposals
`[1,2,3,4]` and their permutation `[4,1,3,2]`. -/
theorem median_even_upper_witness :
    processFeeProposals [4, 1, 3, 2] = some 3 := by
  have h := (median_even_upper [1, 2, 3, 4] (by decide) (by decide)).2.2.1
    [4, 1, 3, 2] (by decide)
  rw [h]
  exact (median_even_upper [1, 2, 3, 4] (by decide) (by decide)).1.trans
    (by decide)

/-- C7 counterexample: the claim's "mutually compatible" rule accepts a
Signet-tagged P2SH address under a Testnet-configured federation, but
`is_address_valid_for_network` rejects it — the leniency only applies to
addresses whose own network tag is Testnet. -/
theorem address_network_not_mutual_counterexample :
    specNetworkCompatible { network := .signet, addressType := some .p2sh } .testnet = true ∧
    isAddressValidForNetwork { network := .signet, addressType := some .p2sh } .testnet = false ∧
    specNetworkCompatible { network := .signet, addressType := some .p2sh } .testnet ≠
      isAddressValidForNetwork { network := .signet, addressType := some .p2sh } .testnet := by
  refine ⟨by decide, by decide, by decide⟩

/-- C7 amended: `validate_output` rejects with `WrongNetwork` exactly
when `is_address_valid_for_network` is false, where an address bearing
the TESTNET network tag of type P2PKH or P2SH is compatible with
configured networks Testnet, Regtest and Signet, a Testnet-tagged
address of any other type is compatible with Testnet and Signet, and
every other address must match the configured network exactly; in
particular a peg-out to a Testnet P2SH address is accepted when the
configured network is Signet or Regtest and rejected when it is
Mainnet. -/
theorem wrong_network_exact :
    (∀ cfg : Cfg, ∀ db : WalletDb, ∀ output : PegOut,
      (∃ a b, validateOutput cfg db output = some (.error (.wrongNetwork a b))) ↔
        isAddressValidForNetwork output.recipient cfg.network = false) ∧
    (∀ addr : BAddress, ∀ n : Network,
      isAddressValidForNetwork addr n = true ↔
        ((addr.network = .testnet ∧
            (addr.addressType = some .p2pkh ∨ addr.addressType = some .p2sh) ∧
            (n = .testnet ∨ n = .regtest ∨ n = .signet)) ∨
          (addr.network = .testnet ∧
            addr.addressType ≠ some .p2pkh ∧ addr.addressType ≠ some .p2sh ∧
            (n = .testnet ∨ n = .signet)) ∨
          addr.network = n)) ∧
    isAddressValidForNetwork { network := .testnet, addressType := some .p2sh } .signet = true ∧
    isAddressValidForNetwork { network := .testnet, addressType := some .p2sh } .regtest = true ∧
    isAddressValidForNetwork { network := .testnet, addressType := some .p2sh } .bitcoin = false := by
  refine ⟨?_, ?_, by decide, by decide, by decide⟩
  · intro cfg db output
    constructor
    · rintro ⟨a, b, h⟩
      by_contra hv'
      rw [Bool.not_eq_false] at hv'
      simp only [validateOutput, hv', not_true_eq_false, if_false] at h
      rcases hdb : db.roundConsensus with _ | rc
      · simp only [hdb] at h
        exact Option.noConfusion h
      · simp only [hdb] at h
        by_cases hfee : output.fees.feeRate < rc.feeRate
        · rw [if_pos hfee] at h
          exact WalletError.noConfusion (Except.error.inj (Option.some.inj h))
        · rw [if_neg hfee] at h
          by_cases htx : (createPegOutTx cfg db output).isNone
          · rw [if_pos htx] at h
            exact WalletError.noConfusion (Except.error.inj (Option.some.inj h))
          · rw [if_neg htx] at h
            exact Except.noConfusion (Option.some.inj h)
    · intro hv
      refine ⟨cfg.network, output.recipient.network, ?_⟩
      simp [validateOutput, hv]
  · intro addr n
    rcases addr with ⟨anet, atype⟩
    rcases anet <;> rcases atype with _ | t <;> first
      | (rcases n <;> decide)
      | (rcases t <;> rcases n <;> decide)

/-- C7 witness: a Testnet P2SH address is accepted under a
Signet-configured federation. -/
theorem wrong_network_exact_witness :
    isAddressValidForNetwork { network := .testnet, addressType := some .p2sh } .signet = true :=
  wrong_network_exact.2.2.1

/-- C10: a Testnet-tagged address whose type is neither P2PKH nor P2SH
(e.g. SegWit) is valid only when the configured network is Testnet or
Signet; in particular it is rejected under Regtest, unlike Testnet
P2PKH/P2SH addresses which Regtest accepts. -/
theorem testnet_segwit_network_rule :
    (∀ t : Option AddressType, t ≠ some .p2pkh → t ≠ some .p2sh →
      ∀ n : Network,
        isAddressValidForNetwork { network := .testnet, addressType := t } n = true ↔
          (n = .testnet ∨ n = .signet)) ∧
    isAddressValidForNetwork { network := .testnet, addressType := some .p2wpkh } .regtest = false ∧
    isAddressValidForNetwork { network := .testnet, addressType := some .p2pkh } .regtest = true ∧
    isAddressValidForNetwork { network := .testnet, addressType := some .p2sh } .regtest = true := by
  refine ⟨?_, by decide, by decide, by decide⟩
  intro t h1 h2 n
  rcases t with _ | t
  · rcases n <;> decide
  · rcases t
    · exact absurd rfl h1
    · exact absurd rfl h2
    · rcases n <;> decide
    · rcases n <;> decide
    · rcases n <;> decide

/-- C10 witness: a Testnet P2WSH address is accepted under a
Signet-configured federation. -/
theorem testnet_segwit_network_rule_witness :
    isAddressValidForNetwork { network := .testnet, addressType := some .p2wsh } .signet = true := by
  exact (testnet_segwit_network_rule.1 (some .p2wsh) (by decide) (by decide) .signet).mpr
    (Or.inr rfl)

/-- Helper: an accepted `validate_input` means the block is known, the
proof verifies and the outpoint is unclaimed. -/
theorem validateInput_ok_elim (cfg : Cfg) (db : WalletDb) (p : PegInProof)
    (m : InputMeta) (hv : validateInput cfg db p = .ok m) :
    db.knownBlocks.contains p.proofBlock = true ∧ p.verifies = true ∧
      List.lookup p.outpoint db.utxos = none := by
  unfold validateInput at hv
  split at hv
  · exact Except.noConfusion hv
  · rename_i hcond1
    split at hv
    · exact Except.noConfusion hv
    · rename_i hcond2
      split at hv
      · exact Except.noConfusion hv
      · rename_i hcond3
        refine ⟨?_, ?_, ?_⟩
        · by_contra hc
          exact hcond1 (by simpa using hc)
        · by_contra hc
          exact hcond2 (by simpa using hc)
        · exact Option.not_isSome_iff_eq_none.mp (by simpa using hcond3)

/-- C2: once `apply_input` has accepted and credited a peg-in proof,
any second `validate_input` with the same outpoint (in particular the
same proof) fails with `PegInAlreadyClaimed`, and distinctness of the
`SpendableUTXO` outpoint keys is preserved, so every peg-in outpoint
appears at most once as a `SpendableUTXO`. -/
theorem pegin_double_claim_rejected (cfg : Cfg) (db : WalletDb)
    (p : PegInProof) (meta : InputMeta) (db' : WalletDb)
    (h : applyInput cfg db p = .ok (meta, db')) :
    validateInput cfg db' p = .error .pegInAlreadyClaimed ∧
    (∀ q : PegInProof, q.outpoint = p.outpoint →
      ∀ m', validateInput cfg db' q ≠ .ok m') ∧
    ((db.utxos.map Prod.fst).Nodup → (db'.utxos.map Prod.fst).Nodup) := by
  rcases hv : validateInput cfg db p with e | m
  · simp [applyInput, hv] at h
  · simp only [applyInput, hv] at h
    injection h with h
    injection h with hm hdb'
    obtain ⟨h1, h2, h3⟩ := validateInput_ok_elim cfg db p m hv
    subst hdb'
    have hlook : List.lookup p.outpoint
        ((p.outpoint, ({ tweak := p.tweakContractKey, amount := p.txOutputValue } : SpendableUTXO)) :: db.utxos) =
        some { tweak := p.tweakContractKey, amount := p.txOutputValue } := by
      simp [List.lookup]
    have h1' : p.proofBlock ∈ db.knownBlocks := by simpa using h1
    refine ⟨?_, ?_, ?_⟩
    · have hsome : (List.lookup p.outpoint
          ((p.outpoint, ({ tweak := p.tweakContractKey, amount := p.txOutputValue } : SpendableUTXO)) :: db.utxos)).isSome = true := by
        rw [hlook]; rfl
      simp [validateInput, h1', h2, hsome]
    · intro q hq m' hok
      by_cases hq1 : q.proofBlock ∈ db.knownBlocks
      · by_cases hq2 : q.verifies = true
        · have hlookq : (List.lookup q.outpoint
              ((p.outpoint, ({ tweak := p.tweakContractKey, amount := p.txOutputValue } : SpendableUTXO)) :: db.utxos)).isSome = true := by
            rw [hq, hlook]; rfl
          simp [validateInput, hq1, hq2, hlookq] at hok
        · simp [validateInput, hq1, hq2] at hok
      · simp [validateInput, hq1] at hok
    · intro hnodup
      dsimp only
      simp only [List.map_cons, List.nodup_cons]
      refine ⟨?_, hnodup⟩
      intro hmem
      rw [List.lookup_eq_none_iff] at h3
      obtain ⟨kv, hkv, hfst⟩ := List.mem_map.mp hmem
      have := h3 kv hkv
      rw [hfst] at this
      simp at this

/-- C2 witness: a concrete peg-in applied to an empty wallet is
rejected as already claimed on resubmission. -/
theorem pegin_double_claim_rejected_witness :
    validateInput
      { network := .regtest, feeConsensus := { pegInAbs := 0, pegOutAbs := 0 },
        calcFee := fun _ _ => 0, deriveScript := fun _ => { sid := 0, len := 0, dustValue := 0 },
        addrScript := fun _ => { sid := 0, len := 0, dustValue := 0 },
        maxSatisfactionWeight := 0, txidOf := fun _ => 0, peerKeyOf := fun _ => 0 }
      { utxos := [(7, { tweak := [1], amount := 1000000 })], knownBlocks := [3],
        roundConsensus := none, unsignedTxs := [], pendingTxs := [],
        pegOutSigCI := [], pegOutBtcTx := [] }
      { proofBlock := 3, outpoint := 7, txOutputValue := 1000000,
        tweakContractKey := [1], verifies := true } =
      .error .pegInAlreadyClaimed := by
  have h := pegin_double_claim_rejected
    { network := .regtest, feeConsensus := { pegInAbs := 0, pegOutAbs := 0 },
      calcFee := fun _ _ => 0, deriveScript := fun _ => { sid := 0, len := 0, dustValue := 0 },
      addrScript := fun _ => { sid := 0, len := 0, dustValue := 0 },
      maxSatisfactionWeight := 0, txidOf := fun _ => 0, peerKeyOf := fun _ => 0 }
    { utxos := [], knownBlocks := [3], roundConsensus := none,
      unsignedTxs := [], pendingTxs := [], pegOutSigCI := [], pegOutBtcTx := [] }
    { proofBlock := 3, outpoint := 7, txOutputValue := 1000000,
      tweakContractKey := [1], verifies := true }
    { amount := 1000000, fee := 0, pukKeys := [[1]] }
    { utxos := [(7, { tweak := [1], amount := 1000000 })], knownBlocks := [3],
      roundConsensus := none, unsignedTxs := [], pendingTxs := [],
      pegOutSigCI := [], pegOutBtcTx := [] }
    (by rfl)
  exact h.1

/-- Helper: a successful selection extends the accumulator with a prefix
of the remaining UTXO list, sums the added amounts, counts the added
weight, and reaches the target plus the fee at the final weight. -/
theorem selectUtxos_some_spec (calcFee : Nat → Nat → Nat)
    (feeRate target inWeight : Nat) (utxos : List (Nat × SpendableUTXO)) :
    ∀ (acc : List (Nat × SpendableUTXO)) (selected weight : Nat)
      (sel : List (Nat × SpendableUTXO)) (v w : Nat),
      selectUtxos calcFee feeRate target inWeight utxos acc selected weight =
        some (sel, v, w) →
      ∃ added, sel = acc ++ added ∧
        added = utxos.take added.length ∧ added.length ≤ utxos.length ∧
        v = selected + sumAmounts added ∧
        w = weight + added.length * inWeight ∧
        target + calcFee feeRate w ≤ v := by
  induction utxos with
  | nil =>
      intro acc selected weight sel v w h
      unfold selectUtxos at h
      split at h
      · exact Option.noConfusion h
      · rename_i hge
        injection h with h
        obtain ⟨h1, h2⟩ := Prod.mk.injEq _ _ _ _ ▸ h
        obtain ⟨h2, h3⟩ := Prod.mk.injEq _ _ _ _ ▸ h2
        refine ⟨[], by simp [h1.symm], by simp, by simp,
          by simp [sumAmounts, h2.symm], by simp [h3.symm], ?_⟩
        subst h2; subst h3
        omega
  | cons u rest ih =>
      intro acc selected weight sel v w h
      unfold selectUtxos at h
      split at h
      · obtain ⟨added, ha, hpre, hlen, hv, hw, hb⟩ :=
          ih (acc ++ [u]) (selected + u.2.amount) (weight + inWeight) sel v w h
        refine ⟨u :: added, ?_, ?_, ?_, ?_, ?_, hb⟩
        · simpa using ha
        · rw [List.length_cons, List.take_succ_cons]
          exact congrArg (u :: ·) hpre
        · simpa using Nat.succ_le_succ hlen
        · simp [sumAmounts] at hv ⊢
          omega
        · rw [List.length_cons, hw, Nat.succ_mul]
          ring
      · rename_i hge
        injection h with h
        obtain ⟨h1, h2⟩ := Prod.mk.injEq _ _ _ _ ▸ h
        obtain ⟨h2, h3⟩ := Prod.mk.injEq _ _ _ _ ▸ h2
        refine ⟨[], by simp [h1.symm], by simp, by simp,
          by simp [sumAmounts, h2.symm], by simp [h3.symm], ?_⟩
        subst h2; subst h3
        omega

/-- Helper: the selection loop returns `none` exactly when every prefix
of the remaining UTXO list (hence also the whole of it) leaves the
selected value below the target plus the fee at the accumulated
weight. -/
theorem selectUtxos_none_iff (calcFee : Nat → Nat → Nat)
    (feeRate target inWeight : Nat) (utxos : List (Nat × SpendableUTXO)) :
    ∀ (acc : List (Nat × SpendableUTXO)) (selected weight : Nat),
      selectUtxos calcFee feeRate target inWeight utxos acc selected weight =
        none ↔
      ∀ k, k ≤ utxos.length →
        selected + sumAmounts (utxos.take k) <
          target + calcFee feeRate (weight + k * inWeight) := by
  induction utxos with
  | nil =>
      intro acc selected weight
      unfold selectUtxos
      constructor
      · intro h k hk
        have hk0 : k = 0 := Nat.le_zero.mp hk
        subst hk0
        split at h
        · rename_i hlt
          simpa [sumAmounts] using hlt
        · exact Option.noConfusion h
      · intro h
        have := h 0 (by simp)
        simp [sumAmounts] at this
        rw [if_pos (by simpa [sumAmounts] using this)]
  | cons u rest ih =>
      intro acc selected weight
      unfold selectUtxos
      by_cases hc : selected < target + calcFee feeRate weight
      · rw [if_pos hc]
        rw [ih (acc ++ [u]) (selected + u.2.amount) (weight + inWeight)]
        constructor
        · intro h k hk
          match k with
          | 0 => simpa [sumAmounts] using hc
          | j + 1 =>
              have hj := h j (by simpa using hk)
              simp [sumAmounts] at hj ⊢
              have harith : weight + inWeight + j * inWeight =
                  weight + (j + 1) * inWeight := by ring
              rw [harith] at hj
              omega
        · intro h k hk
          have hk1 := h (k + 1) (by simpa using Nat.succ_le_succ hk)
          simp [sumAmounts] at hk1 ⊢
          have harith : weight + (k + 1) * inWeight =
              weight + inWeight + k * inWeight := by ring
          rw [harith] at hk1
          omega
      · rw [if_neg hc]
        constructor
        · intro h
          exact Option.noConfusion h
        · intro h
          exfalso
          have := h 0 (by simp)
          simp [sumAmounts] at this
          omega

/-- C5 amended: whenever `create_tx` returns a transaction, its stored
fee rate is the requested one, the change output value equals the total
selected input value minus the peg-out amount minus the fees recomputed
at the final total weight, and change is at least (not necessarily
strictly greater than) the change script's dust value; `create_tx`
returns `none` exactly when consuming the UTXOs largest-first never
reaches the selection target `amount + dust + fees`. -/
theorem create_tx_change_correct (cfg : Cfg) (pegOutAmount : Nat)
    (destination : Script) (utxos : List (Nat × SpendableUTXO))
    (feeRate : Nat) (changeTweak : List Nat) :
    (∀ tx, createTx cfg pegOutAmount destination utxos feeRate changeTweak =
        some tx →
      tx.fees.feeRate = feeRate ∧
      tx.change = sumInputs tx - pegOutAmount -
        cfg.calcFee feeRate tx.fees.totalWeight ∧
      tx.change + cfg.calcFee feeRate tx.fees.totalWeight + pegOutAmount =
        sumInputs tx ∧
      (cfg.deriveScript changeTweak).dustValue ≤ tx.change ∧
      tx.outputs = [(pegOutAmount, destination.sid),
        (tx.change, (cfg.deriveScript changeTweak).sid)]) ∧
    (createTx cfg pegOutAmount destination utxos feeRate changeTweak = none ↔
      ∀ k, k ≤ utxos.length →
        sumAmounts (((List.insertionSort (fun a b => a.2.amount ≤ b.2.amount)
            utxos).reverse).take k) <
          pegOutAmount + (cfg.deriveScript changeTweak).dustValue +
            cfg.calcFee feeRate
              (txBaseWeight destination (cfg.deriveScript changeTweak) +
                k * inputWeight cfg)) := by
  have hlen : ((List.insertionSort (fun a b => a.2.amount ≤ b.2.amount)
      utxos).reverse).length = utxos.length := by
    simp [List.length_reverse, List.length_insertionSort]
  constructor
  · intro tx h
    rcases hsel : selectUtxos cfg.calcFee feeRate
        (pegOutAmount + (cfg.deriveScript changeTweak).dustValue)
        (inputWeight cfg)
        ((List.insertionSort (fun a b => a.2.amount ≤ b.2.amount) utxos).reverse)
        [] 0 (txBaseWeight destination (cfg.deriveScript changeTweak)) with
      _ | ⟨sel, v, w⟩
    · simp only [createTx, hsel] at h
      exact Option.noConfusion h
    · simp only [createTx, hsel] at h
      injection h with h
      obtain ⟨added, hadd, hpre, hselLen, hv, hw, hbound⟩ :=
        selectUtxos_some_spec _ _ _ _ _ _ _ _ _ _ _ hsel
      simp only [List.nil_append] at hadd
      subst hadd
      have hvs : v = sumAmounts sel := by simpa using hv
      have hsum : sumInputs tx = sumAmounts sel := by
        rw [← h]
        simp only [sumInputs, sumAmounts, List.map_map]
        rfl
      have hchange : tx.change = sumAmounts sel -
          cfg.calcFee feeRate w - pegOutAmount := by
        rw [← h, hvs]
      have hfees : tx.fees = { feeRate := feeRate, totalWeight := w } := by
        rw [← h]
      have houts : tx.outputs = [(pegOutAmount, destination.sid),
          (tx.change, (cfg.deriveScript changeTweak).sid)] := by
        rw [← h, hvs]
      rw [hvs] at hbound
      refine ⟨by rw [hfees], ?_, ?_, ?_, houts⟩
      · rw [hchange, hsum, hfees]
        dsimp only
        omega
      · rw [hchange, hsum, hfees]
        dsimp only
        omega
      · rw [hchange]
        omega
  · rw [← hlen]
    rcases hsel : selectUtxos cfg.calcFee feeRate
        (pegOutAmount + (cfg.deriveScript changeTweak).dustValue)
        (inputWeight cfg)
        ((List.insertionSort (fun a b => a.2.amount ≤ b.2.amount) utxos).reverse)
        [] 0 (txBaseWeight destination (cfg.deriveScript changeTweak)) with
      _ | ⟨sel, v, w⟩
    · simp only [createTx, hsel]
      have hnone := (selectUtxos_none_iff cfg.calcFee feeRate
        (pegOutAmount + (cfg.deriveScript changeTweak).dustValue)
        (inputWeight cfg)
        ((List.insertionSort (fun a b => a.2.amount ≤ b.2.amount) utxos).reverse)
        [] 0 (txBaseWeight destination (cfg.deriveScript changeTweak))).mp hsel
      simp only [Nat.zero_add] at hnone
      exact ⟨fun _ k hk => hnone k hk, fun _ => trivial⟩
    · simp only [createTx, hsel]
      constructor
      · intro h
        exact Option.noConfusion h
      · intro hall
        exfalso
        obtain ⟨added, hadd, hpre, hselLen, hv, hw, hbound⟩ :=
          selectUtxos_some_spec _ _ _ _ _ _ _ _ _ _ _ hsel
        simp only [List.nil_append] at hadd
        subst hadd
        have hk := hall sel.length hselLen
        rw [← hpre] at hk
        rw [hw, hv] at hbound
        simp only [Nat.zero_add] at hbound
        omega

/-- C5 counterexample: with zero fees, dust value 5, peg-out amount 10
and a single 15-sat UTXO, `create_tx` succeeds with change exactly equal
to the dust value, refuting "change is strictly greater than the change
script's dust value". -/
theorem create_tx_change_eq_dust_counterexample :
    ∃ tx, createTx exCfgC5 10 exDestC5 [(0, { tweak := [], amount := 15 })] 1 []
        = some tx ∧
      tx.change = (exCfgC5.deriveScript []).dustValue ∧
      ¬ ((exCfgC5.deriveScript []).dustValue < tx.change) := by
  refine ⟨_, rfl, ?_, ?_⟩
  · rfl
  · decide

/-- C5 witness: the amended change accounting at a concrete
`create_tx` run. -/
theorem create_tx_change_correct_witness :
    ∃ tx, createTx exCfgC5 10 exDestC5 [(0, { tweak := [], amount := 15 })] 1 []
        = some tx ∧
      (exCfgC5.deriveScript []).dustValue ≤ tx.change ∧
      tx.change + exCfgC5.calcFee 1 tx.fees.totalWeight + 10 = sumInputs tx := by
  obtain ⟨tx, htx⟩ : ∃ tx,
      createTx exCfgC5 10 exDestC5 [(0, { tweak := [], amount := 15 })] 1 [] =
        some tx := ⟨_, rfl⟩
  have h := (create_tx_change_correct exCfgC5 10 exDestC5
    [(0, { tweak := [], amount := 15 })] 1 []).1 tx htx
  exact ⟨tx, htx, h.2.2.2.1, h.2.2.1⟩

theorem lookup_removeEntry_self (l : List (Nat × SpendableUTXO)) (k : Nat) :
    List.lookup k (removeEntry l k) = none := by
  induction l with
  | nil => rfl
  | cons kv rest ih =>
      rcases kv with ⟨k1, v1⟩
      by_cases h : k1 = k
      · have hstep : removeEntry ((k1, v1) :: rest) k = removeEntry rest k := by
          simp [removeEntry, List.filter_cons, h]
        rw [hstep]
        exact ih
      · have hstep : removeEntry ((k1, v1) :: rest) k =
            (k1, v1) :: removeEntry rest k := by
          simp [removeEntry, List.filter_cons, h]
        rw [hstep]
        have hbeq : (k == k1) = false := beq_false_of_ne fun he => h he.symm
        simp only [List.lookup, hbeq]
        exact ih

theorem lookup_removeEntry_ne (l : List (Nat × SpendableUTXO)) (k k' : Nat)
    (h : k' ≠ k) : List.lookup k' (removeEntry l k) = List.lookup k' l := by
  induction l with
  | nil => rfl
  | cons kv rest ih =>
      rcases kv with ⟨k1, v1⟩
      by_cases hk : k1 = k
      · have hstep : removeEntry ((k1, v1) :: rest) k = removeEntry rest k := by
          simp [removeEntry, List.filter_cons, hk]
        have hbeq : (k' == k1) = false :=
          beq_false_of_ne fun he => h (he.trans hk)
        rw [hstep, ih]
        simp only [List.lookup, hbeq]
      · have hstep : removeEntry ((k1, v1) :: rest) k =
            (k1, v1) :: removeEntry rest k := by
          simp [removeEntry, List.filter_cons, hk]
        rw [hstep]
        by_cases hk' : k' = k1
        · have hbeq : (k' == k1) = true := beq_iff_eq.mpr hk'
          simp only [List.lookup, hbeq]
        · have hbeq : (k' == k1) = false := beq_false_of_ne hk'
          simp only [List.lookup, hbeq]
          exact ih

theorem lookup_foldl_removeEntry (inputs : List PsbtInput) :
    ∀ (l : List (Nat × SpendableUTXO)) (k : Nat),
      List.lookup k
          (inputs.foldl (fun u inp => removeEntry u inp.prevOutpoint) l) =
        if ∃ inp ∈ inputs, inp.prevOutpoint = k then none
        else List.lookup k l := by
  induction inputs with
  | nil =>
      intro l k
      simp
  | cons i is ih =>
      intro l k
      rw [List.foldl_cons, ih]
      by_cases hik : i.prevOutpoint = k
      · have hc : ∃ inp ∈ i :: is, inp.prevOutpoint = k :=
          ⟨i, List.mem_cons_self _ _, hik⟩
        rw [if_pos hc]
        by_cases hex : ∃ inp ∈ is, inp.prevOutpoint = k
        · rw [if_pos hex]
        · rw [if_neg hex, hik, lookup_removeEntry_self]
      · have hiff : (∃ inp ∈ i :: is, inp.prevOutpoint = k) ↔
            (∃ inp ∈ is, inp.prevOutpoint = k) := by
          constructor
          · rintro ⟨inp, hmem, hp⟩
            rcases List.mem_cons.mp hmem with heq | hmem'
            · exact absurd (heq ▸ hp) hik
            · exact ⟨inp, hmem', hp⟩
          · rintro ⟨inp, hmem, hp⟩
            exact ⟨inp, List.mem_cons_of_mem _ hmem, hp⟩
        by_cases hex : ∃ inp ∈ is, inp.prevOutpoint = k
        · rw [if_pos hex, if_pos (hiff.mpr hex)]
        · rw [if_neg hex, if_neg (fun hc => hex (hiff.mp hc))]
          exact lookup_removeEntry_ne l i.prevOutpoint k
            (fun he => hik he.symm)

theorem createTx_signatures_nil (cfg : Cfg) (pegAmt : Nat) (dest : Script)
    (utxos : List (Nat × SpendableUTXO)) (fr : Nat) (tweak : List Nat)
    (tx : UnsignedTx)
    (h : createTx cfg pegAmt dest utxos fr tweak = some tx) :
    tx.signatures = [] := by
  rcases hsel : selectUtxos cfg.calcFee fr
      (pegAmt + (cfg.deriveScript tweak).dustValue) (inputWeight cfg)
      ((List.insertionSort (fun a b => a.2.amount ≤ b.2.amount) utxos).reverse)
      [] 0 (txBaseWeight dest (cfg.deriveScript tweak)) with _ | ⟨sel, v, w⟩
  · simp only [createTx, hsel] at h
    exact Option.noConfusion h
  · simp only [createTx, hsel] at h
    injection h with h
    rw [← h]

theorem createPegOutTx_elim (cfg : Cfg) (db : WalletDb) (output : PegOut)
    (tx : UnsignedTx) (h : createPegOutTx cfg db output = some tx) :
    ∃ rc, db.roundConsensus = some rc ∧
      createTx cfg output.amount (cfg.addrScript output.recipient) db.utxos
        output.fees.feeRate rc.randomnessBeacon = some tx := by
  unfold createPegOutTx at h
  rcases hdb : db.roundConsensus with _ | rc
  · simp only [hdb] at h
    exact Option.noConfusion h
  · simp only [hdb] at h
    exact ⟨rc, rfl, h⟩

/-- C8: after a successful `apply_output` for a peg-out, the
`SpendableUTXO` entry of every input outpoint of the newly built
unsigned transaction has been deleted, every other `SpendableUTXO` entry
is unchanged, and the queued `UnsignedTransaction` still has an empty
`signatures` list — the UTXOs are consumed at output time, before any
signature aggregation for that transaction. -/
theorem apply_output_consumes_utxos (cfg : Cfg) (db : WalletDb)
    (output : PegOut) (outPoint : Nat) (amt : TransactionItemAmount)
    (db' : WalletDb)
    (h : applyOutput cfg db output outPoint = some (.ok (amt, db'))) :
    ∃ tx, createPegOutTx cfg db output = some tx ∧
      (∀ inp ∈ tx.inputs, List.lookup inp.prevOutpoint db'.utxos = none) ∧
      (∀ k, (∀ inp ∈ tx.inputs, inp.prevOutpoint ≠ k) →
        List.lookup k db'.utxos = List.lookup k db.utxos) ∧
      List.lookup (cfg.txidOf tx) db'.unsignedTxs = some tx ∧
      tx.signatures = [] ∧
      db'.knownBlocks = db.knownBlocks ∧ db'.pendingTxs = db.pendingTxs ∧
      db'.roundConsensus = db.roundConsensus := by
  unfold applyOutput at h
  rcases hval : validateOutput cfg db output with _ | res
  · simp only [hval] at h
    exact Option.noConfusion h
  · simp only [hval] at h
    rcases res with e | amount
    · exact (Except.noConfusion (Option.some.inj h))
    · rcases htx : createPegOutTx cfg db output with _ | tx
      · simp only [htx] at h
        exact Option.noConfusion h
      · simp only [htx] at h
        injection h with h
        injection h with h
        injection h with ham hdb
        subst hdb
        refine ⟨tx, rfl, ?_, ?_, ?_, ?_, rfl, rfl, rfl⟩
        · intro inp hmem
          show List.lookup inp.prevOutpoint
            (tx.inputs.foldl (fun u i => removeEntry u i.prevOutpoint)
              db.utxos) = none
          rw [lookup_foldl_removeEntry]
          rw [if_pos ⟨inp, hmem, rfl⟩]
        · intro k hk
          show List.lookup k
            (tx.inputs.foldl (fun u i => removeEntry u i.prevOutpoint)
              db.utxos) = List.lookup k db.utxos
          rw [lookup_foldl_removeEntry]
          rw [if_neg ?_]
          rintro ⟨inp, hmem, hp⟩
          exact hk inp hmem hp
        · show List.lookup (cfg.txidOf tx)
            ((cfg.txidOf tx, tx) :: db.unsignedTxs) = some tx
          simp [List.lookup]
        · obtain ⟨rc, _, hct⟩ := createPegOutTx_elim cfg db output tx htx
          exact createTx_signatures_nil _ _ _ _ _ _ _ hct

/-- C8 witness: the concrete `apply_output` run deletes exactly the
spent outpoint 9 and leaves outpoint 5 untouched. -/
theorem apply_output_consumes_utxos_witness :
    applyOutput exCfgC8 exDbC8 exOutC8 77 =
      some (.ok ({ amount := 10, fee := 0 }, exDbC8')) ∧
    List.lookup 9 exDbC8'.utxos = none ∧
    List.lookup 5 exDbC8'.utxos = List.lookup 5 exDbC8.utxos := by
  have happ : applyOutput exCfgC8 exDbC8 exOutC8 77 =
      some (.ok ({ amount := 10, fee := 0 }, exDbC8')) := rfl
  obtain ⟨tx, htx, hnone, hframe, _⟩ :=
    apply_output_consumes_utxos exCfgC8 exDbC8 exOutC8 77
      { amount := 10, fee := 0 } exDbC8' happ
  have hctx : createPegOutTx exCfgC8 exDbC8 exOutC8 = some exTxC8 := rfl
  have htxeq : exTxC8 = tx := by
    rw [hctx] at htx
    exact Option.some.inj htx
  rw [← htxeq] at hnone hframe
  refine ⟨happ, ?_, ?_⟩
  · exact hnone { prevOutpoint := 9, witnessValue := 100, tweak := [], sigMap := [] }
      (by decide)
  · refine hframe 5 ?_
    intro inp hmem
    have : inp = { prevOutpoint := 9, witnessValue := 100, tweak := [], sigMap := [] } := by
      rcases List.mem_singleton.mp hmem with h
      exact h
    rw [this]
    decide

theorem auditItem_eq (n : Nat) (h : n * 1000 < 2 ^ 63) :
    auditItem n = (n : Int) * 1000 := by
  have hn : n < 2 ^ 63 := by
    have : n ≤ n * 1000 := Nat.le_mul_of_pos_right n (by norm_num)
    omega
  have hmod : n % 2 ^ 64 = n := Nat.mod_eq_of_lt (by omega)
  unfold auditItem i64cast i64wrap
  rw [if_pos (by omega), hmod]
  omega

/-- C6 counterexample: the audit contributes the outstanding change of
an `UnsignedTransaction` as the POSITIVE item `+5000` milli-sats, not as
a negative item as the claim states. -/
theorem audit_change_positive_counterexample :
    walletAuditItems exDbC6 = [(5000 : Int)] ∧ (0 : Int) < 5000 ∧
      (5000 : Int) ≠ -(5 * 1000) := by
  refine ⟨by decide, by decide, by decide⟩

/-- C6 amended: the audit contributes every `SpendableUTXO` amount,
every `UnsignedTransaction` outstanding change and every
`PendingTransaction` change, each as `to_sat() * 1000`, all POSITIVE
(non-negative) items — the outstanding change is not negated (the
hypotheses keep the amounts below i64 overflow, which holds for any real
satoshi amount). -/
theorem audit_items_nonneg (db : WalletDb)
    (hu : ∀ kv ∈ db.utxos, kv.2.amount * 1000 < 2 ^ 63)
    (ht : ∀ kv ∈ db.unsignedTxs, kv.2.change * 1000 < 2 ^ 63)
    (hp : ∀ kv ∈ db.pendingTxs, kv.2.change * 1000 < 2 ^ 63) :
    walletAuditItems db =
      db.utxos.map (fun kv => (kv.2.amount : Int) * 1000) ++
      db.unsignedTxs.map (fun kv => (kv.2.change : Int) * 1000) ++
      db.pendingTxs.map (fun kv => (kv.2.change : Int) * 1000) ∧
    (∀ x ∈ walletAuditItems db, 0 ≤ x) := by
  have h1 : db.utxos.map (fun kv => auditItem kv.2.amount) =
      db.utxos.map (fun kv => (kv.2.amount : Int) * 1000) :=
    List.map_congr_left fun kv hkv => auditItem_eq _ (hu kv hkv)
  have h2 : db.unsignedTxs.map (fun kv => auditItem kv.2.change) =
      db.unsignedTxs.map (fun kv => (kv.2.change : Int) * 1000) :=
    List.map_congr_left fun kv hkv => auditItem_eq _ (ht kv hkv)
  have h3 : db.pendingTxs.map (fun kv => auditItem kv.2.change) =
      db.pendingTxs.map (fun kv => (kv.2.change : Int) * 1000) :=
    List.map_congr_left fun kv hkv => auditItem_eq _ (hp kv hkv)
  have heq : walletAuditItems db =
      db.utxos.map (fun kv => (kv.2.amount : Int) * 1000) ++
      db.unsignedTxs.map (fun kv => (kv.2.change : Int) * 1000) ++
      db.pendingTxs.map (fun kv => (kv.2.change : Int) * 1000) := by
    rw [walletAuditItems, h1, h2, h3]
  refine ⟨heq, ?_⟩
  intro x hx
  rw [heq] at hx
  rcases List.mem_append.mp hx with hx' | hx'
  · rcases List.mem_append.mp hx' with hx'' | hx''
    · obtain ⟨kv, _, hkv⟩ := List.mem_map.mp hx''
      rw [← hkv]
      positivity
    · obtain ⟨kv, _, hkv⟩ := List.mem_map.mp hx''
      rw [← hkv]
      positivity
  · obtain ⟨kv, _, hkv⟩ := List.mem_map.mp hx'
    rw [← hkv]
    positivity

/-- C6 witness: the audit items of the concrete one-transaction wallet
state evaluate to the single non-negative item 5000. -/
theorem audit_items_nonneg_witness :
    walletAuditItems exDbC6 = [(5000 : Int)] ∧ (0 : Int) ≤ 5000 := by
  refine ⟨by decide, ?_⟩
  exact (audit_items_nonneg exDbC6 (by decide) (by decide) (by decide)).2
    5000 (by decide)

theorem lookup_insertSig_self (m : List (Nat × Nat)) (k v : Nat) :
    List.lookup k (insertSig m k v) = some v := by
  simp [insertSig, List.lookup]

/-- Helper: the per-input signing loop of `sign_peg_out_psbt`, when the
peer's item verifies cleanly for the first `k` inputs but fails on input
`k` (invalid signature or already-present key), returns an error while
the signatures already inserted for the first `k` inputs remain. -/
theorem signLoop_fail (verify : Nat → Nat → Bool) (peerKey : Nat) :
    ∀ (inputs : List PsbtInput) (sigs : List Nat) (j k : Nat),
      inputs.length = sigs.length → k < inputs.length →
      (∀ i, i < k → verify (j + i) (sigs.getD i 0) = true ∧
        List.lookup peerKey ((inputs.getD i dummyInput).sigMap) = none) →
      (verify (j + k) (sigs.getD k 0) = false ∨
        (List.lookup peerKey ((inputs.getD k dummyInput).sigMap)).isSome) →
      (∃ e, (signLoop verify peerKey j inputs sigs).2 = .error e) ∧
      ∀ i, i < k →
        List.lookup peerKey
          (((signLoop verify peerKey j inputs sigs).1.getD i dummyInput).sigMap) =
          some (sigs.getD i 0) := by
  intro inputs
  induction inputs with
  | nil =>
      intro sigs j k _ hk _ _
      exact absurd hk (by simp)
  | cons inp inps ih =>
      intro sigs j k hlen hk hok hfail
      rcases sigs with _ | ⟨s, ss⟩
      · exact absurd hlen (by simp)
      · match k with
        | 0 =>
            by_cases hfv : verify j s = false
            · refine ⟨⟨.invalidSignature, ?_⟩, fun i hi => absurd hi (by omega)⟩
              simp [signLoop, hfv]
            · have hdup : (List.lookup peerKey inp.sigMap).isSome := by
                rcases hfail with hl | hr
                · rw [Nat.add_zero] at hl
                  simp only [List.getD_cons_zero] at hl
                  exact absurd hl hfv
                · simpa using hr
              have hfv' : verify j s = true := by
                rcases hv : verify j s with _ | _
                · exact absurd hv hfv
                · rfl
              refine ⟨⟨.duplicateSignature, ?_⟩, fun i hi => absurd hi (by omega)⟩
              simp only [signLoop]
              rw [if_neg (by simp [hfv'])]
              simp [hdup]
        | k' + 1 =>
            have h0 := hok 0 (by omega)
            rw [Nat.add_zero] at h0
            simp only [List.getD_cons_zero] at h0
            have hfv : verify j s = true := h0.1
            have hnodup : List.lookup peerKey inp.sigMap = none := h0.2
            have hnext := ih ss (j + 1) k' (by simpa using hlen)
              (by simpa using hk)
              (fun i hi => by
                have := hok (i + 1) (by omega)
                have harith : j + (i + 1) = j + 1 + i := by omega
                rw [harith] at this
                simpa using this)
              (by
                have harith : j + (k' + 1) = j + 1 + k' := by omega
                rw [harith] at hfail
                simpa using hfail)
            have hstep : signLoop verify peerKey j (inp :: inps) (s :: ss) =
                ({ inp with sigMap := insertSig inp.sigMap peerKey s } ::
                  (signLoop verify peerKey (j + 1) inps ss).1,
                 (signLoop verify peerKey (j + 1) inps ss).2) := by
              simp only [signLoop]
              rw [if_neg (by simp [hfv])]
              rw [if_neg (by simp [hnodup])]
            rw [hstep]
            refine ⟨hnext.1, ?_⟩
            intro i hi
            match i with
            | 0 =>
                simp only [List.getD_cons_zero]
                exact lookup_insertSig_self inp.sigMap peerKey s
            | i' + 1 =>
                simp only [List.getD_cons_succ]
                exact hnext.2 i' (by omega)

/-- C9: `sign_peg_out_psbt` is not atomic on the PSBT — when a peer's
`PegOutSignatureItem` verifies for the first `k` inputs but fails on
input `k` (invalid signature or duplicate), the function returns an
error and the peer is excluded from the signers set computed by
`end_consensus_epoch`, yet the signatures already inserted into
`partial_sigs` for those first `k` inputs remain in the PSBT. -/
theorem sign_psbt_partial_failure (verifyOf : Nat → Nat → Nat → Bool)
    (keyOf : Nat → Nat) (peer : Nat) (inputs : List PsbtInput)
    (sigs : List Nat) (k : Nat)
    (hlen : inputs.length = sigs.length) (hk : k < inputs.length)
    (hok : ∀ i, i < k → verifyOf peer i (sigs.getD i 0) = true ∧
      List.lookup (keyOf peer) ((inputs.getD i dummyInput).sigMap) = none)
    (hfail : verifyOf peer k (sigs.getD k 0) = false ∨
      (List.lookup (keyOf peer) ((inputs.getD k dummyInput).sigMap)).isSome) :
    (∃ e, (signPegOutPsbt (verifyOf peer) (keyOf peer) inputs sigs).2 =
      .error e) ∧
    (∀ i, i < k →
      List.lookup (keyOf peer)
        (((signPegOutPsbt (verifyOf peer) (keyOf peer) inputs sigs).1.getD i
          dummyInput).sigMap) = some (sigs.getD i 0)) ∧
    (collectSigners verifyOf keyOf inputs [(peer, sigs)]).2 = [] := by
  have hsp : signPegOutPsbt (verifyOf peer) (keyOf peer) inputs sigs =
      signLoop (verifyOf peer) (keyOf peer) 0 inputs sigs := by
    unfold signPegOutPsbt
    rw [if_neg (by omega)]
  have hmain := signLoop_fail (verifyOf peer) (keyOf peer) inputs sigs 0 k
    hlen hk (fun i hi => by simpa using hok i hi) (by simpa using hfail)
  obtain ⟨⟨e, he⟩, hkeep⟩ := hmain
  refine ⟨⟨e, by rw [hsp]; exact he⟩,
    fun i hi => by rw [hsp]; exact hkeep i hi, ?_⟩
  simp only [collectSigners, List.foldl_cons, List.foldl_nil]
  rw [hsp] at *
  rw [he]

/-- C9 witness: a two-input PSBT where the peer's signature fails on
the second input — the call errors, the peer signs nothing in the
signers set, but the first input keeps the inserted signature. -/
theorem sign_psbt_partial_failure_witness :
    (∃ e, (signPegOutPsbt (fun i _ => decide (i = 0)) 99 exInputsC9
      [10, 11]).2 = .error e) ∧
    List.lookup 99 (((signPegOutPsbt (fun i _ => decide (i = 0)) 99 exInputsC9
      [10, 11]).1.getD 0 dummyInput).sigMap) = some 10 ∧
    (collectSigners (fun _ i _ => decide (i = 0)) (fun _ => 99) exInputsC9
      [(3, [10, 11])]).2 = [] := by
  have h := sign_psbt_partial_failure (fun _ i _ => decide (i = 0))
    (fun _ => 99) 3 exInputsC9 [10, 11] 1 (by decide) (by decide)
    (fun i hi => by
      have h0 : i = 0 := by omega
      subst h0
      exact ⟨by decide, by decide⟩)
    (Or.inl (by decide))
  exact ⟨h.1, h.2.1 0 (by decide), h.2.2⟩

end Minimint
